import Mathlib

/-!
Verification of the arbitrary-precision fixed-point value container ("WideFix",
src/bittrue/models/python/en_cl_fix_pkg/wide_fix.py) against its specification.

Embedding notes:
* Raw data is a list of unbounded integers (Python arbitrary-precision ints),
  one per container element, plus one shared format descriptor.
* Python's floor division (`//`, `>>`) is `Int.fdiv`; Python's `%` with a
  positive modulus is `Int.emod` (both give remainders in `[0, m)`).
* Exponents `2**(I+F)` etc. are embedded as `2 ^ (…).toNat`.  The Python code
  only stays in integer arithmetic when these exponents are nonnegative
  (otherwise `2**e` is a float and the container's integer assertion fails),
  so theorems that depend on such an exponent carry a `0 ≤ I + F`-style
  hypothesis delimiting that regime.
* Fatal assertions (e.g. the target-format check in `round`) are embedded as
  `Option`: `none` models the raised exception.
* Non-fatal warnings (the `Warn`/`SatWarn` warning channel) have no effect on
  computed values and are not modelled.
-/

/-- Fixed-point format descriptor: signed flag, integer bits, fraction bits.
Modelled from the spec: the `FixFormat` type (en_cl_fix_types.py) is not part
of the observed source; the spec defines it as an immutable triple
(signed flag, integer-bit count, fraction-bit count), both bit counts possibly
negative. -/
structure FixFormat where
  S : Bool
  I : ℤ
  F : ℤ
deriving DecidableEq

/-- Width of a format: `(signed?1:0) + intBits + fracBits`. -/
def FixFormat.width (fmt : FixFormat) : ℤ :=
  (if fmt.S then 1 else 0) + fmt.I + fmt.F

/-- The seven rounding-mode enumerants of `FixRound`.
Modelled from the spec: the enum itself (en_cl_fix_types.py) is not part of
the observed source; the enumerant names appear throughout wide_fix.py. -/
inductive FixRound where
  | Trunc_s
  | NonSymPos_s
  | NonSymNeg_s
  | SymInf_s
  | SymZero_s
  | ConvEven_s
  | ConvOdd_s
deriving DecidableEq

/-- The four saturation-mode enumerants of `FixSaturate`.
Modelled from the spec: the enum itself (en_cl_fix_types.py) is not part of
the observed source; the enumerant names appear throughout wide_fix.py. -/
inductive FixSaturate where
  | None_s
  | Warn_s
  | Sat_s
  | SatWarn_s
deriving DecidableEq

/-- A value passed as the saturation-mode argument.  Python is dynamically
typed, so a caller may pass any object where a `FixSaturate` is expected;
`other` models every non-enumerant value (Python `==` against an enumerant is
then `False`, which is all `saturate` observes about the argument). -/
inductive SatArg where
  | enum : FixSaturate → SatArg
  | other : ℤ → SatArg
deriving DecidableEq

/-- Modelled from the spec: `FixFormat.ForRound` (en_cl_fix_types.py) is not
part of the observed source.  The spec states it returns the
minimal-but-sufficient format with the requested fraction-bit count: when the
fraction bits do not decrease, or the mode is `Trunc` (pure truncation),
values cannot grow, so the integer-bit count is kept; otherwise adding the
rounding offset can carry into one extra integer bit. -/
def FixFormat.ForRound (aFmt : FixFormat) (rF : ℤ) (rnd : FixRound) : FixFormat :=
  if aFmt.F ≤ rF ∨ rnd = FixRound.Trunc_s then
    ⟨aFmt.S, aFmt.I, rF⟩
  else
    ⟨aFmt.S, aFmt.I + 1, rF⟩

/-- Modelled from the spec: `FixFormat.ForAdd` (en_cl_fix_types.py) is not
part of the observed source.  The spec states it returns a sufficient format
for `a + b`; its fraction-bit count is `max(aFmt.F, bFmt.F)` (asserted in
src/bittrue/tests/python/format_tests.py), the result is signed if either
operand is, and one extra integer bit above `max(aFmt.I, bFmt.I)` absorbs the
carry of the sum. -/
def FixFormat.ForAdd (aFmt bFmt : FixFormat) : FixFormat :=
  ⟨aFmt.S || bFmt.S, max aFmt.I bFmt.I + 1, max aFmt.F bFmt.F⟩

/-- The fixed-point value container: raw (already scaled) integer data plus
one shared format.  Element `k` represents the value `data[k] / 2^fmt.F`. -/
structure WideFix where
  data : List ℤ
  fmt : FixFormat
deriving DecidableEq

/-- Maximum representable raw value for a format: `2**(I+F) - 1`
(WideFix.MaxValue, wide_fix.py lines 110-113). -/
def maxRaw (fmt : FixFormat) : ℤ :=
  2 ^ (fmt.I + fmt.F).toNat - 1

/-- Minimum representable raw value for a format: `-2**(I+F)` if signed else
`0` (WideFix.MinValue, wide_fix.py lines 116-123). -/
def minRaw (fmt : FixFormat) : ℤ :=
  if fmt.S then -(2 ^ (fmt.I + fmt.F).toNat : ℤ) else 0

/-- `WideFix.MaxValue`: single-element container holding the maximum raw
value. -/
def WideFix.MaxValue (fmt : FixFormat) : WideFix :=
  ⟨[maxRaw fmt], fmt⟩

/-- `WideFix.MinValue`: single-element container holding the minimum raw
value. -/
def WideFix.MinValue (fmt : FixFormat) : WideFix :=
  ⟨[minRaw fmt], fmt⟩

/-- Weighted word sum `Σ word[i] * 2^(64*i)` of a least-significant-first
64-bit word list (the `matmul(weights, data)` of `FromUint64Array`). -/
def uint64WeightedSum : List ℕ → ℤ
  | [] => 0
  | w :: ws => (w : ℤ) + 2 ^ 64 * uint64WeightedSum ws

/-- `WideFix.FromUint64Array` (wide_fix.py lines 98-106): recombine each
element's uint64 word list into a wide unsigned integer, then fold the sign
bit: values `≥ 2**(I+F)` become `val - 2**(I+F+1)`. -/
def WideFix.FromUint64Array (cols : List (List ℕ)) (fmt : FixFormat) : WideFix :=
  ⟨cols.map (fun ws =>
      let val := uint64WeightedSum ws
      if 2 ^ (fmt.I + fmt.F).toNat ≤ val then val - 2 ^ (fmt.I + fmt.F + 1).toNat else val),
    fmt⟩

/-- The word-emission loop of `to_uint64_array`: `n` iterations of
`word = val % 2**64; val >>= 64`, least-significant word first. -/
def packWords : ℕ → ℤ → List ℕ
  | 0, _ => []
  | n + 1, val => (Int.emod val (2 ^ 64)).toNat :: packWords n (Int.fdiv val (2 ^ 64))

/-- `WideFix.to_uint64_array` (wide_fix.py lines 171-188): per element,
reinterpret the sign bit (`val + 2**width` if negative) and emit
`ceil(width/64)` 64-bit words, least-significant first. -/
def WideFix.to_uint64_array (x : WideFix) : List (List ℕ) :=
  let fmtWidth := x.fmt.width.toNat
  let nInts := (fmtWidth + 63) / 64
  x.data.map (fun val => packWords nInts (if val < 0 then val + 2 ^ fmtWidth else val))

/-- The per-element computation of `WideFix.round` (wide_fix.py lines
192-250) for source fraction bits `f`, target fraction bits `fr`, rounding
mode `rnd` and raw value `val`.  When `fr < f` a mode-dependent offset is
added and the result is arithmetically shifted right by `f - fr`; when
`fr > f` the value is scaled up exactly; otherwise it is unchanged. -/
def roundRaw (f fr : ℤ) (rnd : FixRound) (val : ℤ) : ℤ :=
  if fr < f then
    let half : ℤ := 2 ^ (f - fr - 1).toNat
    let shifted : ℤ :=
      match rnd with
      | FixRound.Trunc_s => val
      | FixRound.NonSymPos_s => val + half
      | FixRound.NonSymNeg_s => val + (half - 1)
      | FixRound.SymInf_s => val + (half - (if val < 0 then 1 else 0))
      | FixRound.SymZero_s => val + (half - (if 0 ≤ val then 1 else 0))
      | FixRound.ConvEven_s =>
          let trunc_a := Int.fdiv val (2 ^ (f - fr).toNat)
          val + (half - Int.emod (trunc_a + 1) 2)
      | FixRound.ConvOdd_s =>
          let trunc_a := Int.fdiv val (2 ^ (f - fr).toNat)
          val + (half - Int.emod trunc_a 2)
    Int.fdiv shifted (2 ^ (f - fr).toNat)
  else if f < fr then
    val * 2 ^ (fr - f).toNat
  else
    val

/-- `WideFix.round`: asserts the target format was produced by `ForRound`
(`none` models the assertion failure), then maps `roundRaw` over the data. -/
def WideFix.round (x : WideFix) (rFmt : FixFormat) (rnd : FixRound) : Option WideFix :=
  if rFmt = FixFormat.ForRound x.fmt rFmt.F rnd then
    some ⟨x.data.map (roundRaw x.fmt.F rFmt.F rnd), rFmt⟩
  else
    none

/-- `WideFix.saturate` (wide_fix.py lines 253-275).  For mode `None` or
`Warn`: wrap into the target's two's-complement ring.  For every other value
of the mode argument (the final `else` of the source, reached by `Sat`,
`SatWarn` and any non-enumerant argument): clamp to `[MinValue, MaxValue]`,
upper bound first. -/
def WideFix.saturate (x : WideFix) (rFmt : FixFormat) (sat : SatArg) : WideFix :=
  if sat = SatArg.enum FixSaturate.None_s ∨ sat = SatArg.enum FixSaturate.Warn_s then
    let satSpan : ℤ := 2 ^ (rFmt.I + rFmt.F).toNat
    if rFmt.S then
      ⟨x.data.map (fun val => Int.emod (val + satSpan) (2 * satSpan) - satSpan), rFmt⟩
    else
      ⟨x.data.map (fun val => Int.emod val satSpan), rFmt⟩
  else
    ⟨x.data.map (fun val =>
        let v1 := if maxRaw rFmt < val then maxRaw rFmt else val
        if v1 < minRaw rFmt then minRaw rFmt else v1), rFmt⟩

/-- `WideFix.resize` (wide_fix.py lines 278-289): round into the
`ForRound`-inferred intermediate format, then saturate into the target. -/
def WideFix.resize (x : WideFix) (rFmt : FixFormat) (rnd : FixRound) (sat : SatArg) :
    Option WideFix :=
  (x.round (FixFormat.ForRound x.fmt rFmt.F rnd) rnd).map (fun rounded =>
    rounded.saturate rFmt sat)

/-- The `+` operator (wide_fix.py lines 371-386): infer the result format
with `ForAdd`, round both operands (mode `Trunc`) up to its fraction-bit
count, then add the raw integers elementwise. -/
def WideFix.add (a b : WideFix) : Option WideFix :=
  let rFmt := FixFormat.ForAdd a.fmt b.fmt
  match a.round (FixFormat.ForRound a.fmt rFmt.F FixRound.Trunc_s) FixRound.Trunc_s,
        b.round (FixFormat.ForRound b.fmt rFmt.F FixRound.Trunc_s) FixRound.Trunc_s with
  | some a2, some b2 => some ⟨List.zipWith (fun u v => u + v) a2.data b2.data, rFmt⟩
  | _, _ => none

/-! ## Helper lemmas -/

lemma forRound_F (aFmt : FixFormat) (rF : ℤ) (rnd : FixRound) :
    (FixFormat.ForRound aFmt rF rnd).F = rF := by
  unfold FixFormat.ForRound
  split <;> rfl

lemma forRound_self (fmt : FixFormat) (rnd : FixRound) :
    FixFormat.ForRound fmt fmt.F rnd = fmt := by
  unfold FixFormat.ForRound
  rw [if_pos (Or.inl le_rfl)]

lemma round_forRound (d : List ℤ) (fmt : FixFormat) (rF : ℤ) (rnd : FixRound) :
    WideFix.round ⟨d, fmt⟩ (FixFormat.ForRound fmt rF rnd) rnd =
      some ⟨d.map (roundRaw fmt.F rF rnd), FixFormat.ForRound fmt rF rnd⟩ := by
  unfold WideFix.round
  rw [forRound_F]
  rw [if_pos rfl]

lemma roundRaw_same (f : ℤ) (rnd : FixRound) (v : ℤ) : roundRaw f f rnd v = v := by
  unfold roundRaw
  rw [if_neg (lt_irrefl f), if_neg (lt_irrefl f)]

lemma map_roundRaw_same (f : ℤ) (rnd : FixRound) (l : List ℤ) :
    l.map (roundRaw f f rnd) = l := by
  induction l with
  | nil => rfl
  | cons v t ih => simp [roundRaw_same, ih]

lemma minRaw_le_maxRaw (fmt : FixFormat) : minRaw fmt ≤ maxRaw fmt := by
  have h : (0:ℤ) < 2 ^ (fmt.I + fmt.F).toNat := by positivity
  unfold minRaw maxRaw
  split <;> omega

lemma roundRaw_shift1_trunc (f : ℤ) : roundRaw f (f - 1) FixRound.Trunc_s 5 = 2 := by
  unfold roundRaw
  rw [if_pos (by omega : f - 1 < f), show f - (f - 1) - 1 = 0 from by ring,
    show f - (f - 1) = 1 from by ring]
  decide

lemma roundRaw_shift1_nonSymPos (f : ℤ) : roundRaw f (f - 1) FixRound.NonSymPos_s 5 = 3 := by
  unfold roundRaw
  rw [if_pos (by omega : f - 1 < f), show f - (f - 1) - 1 = 0 from by ring,
    show f - (f - 1) = 1 from by ring]
  decide

lemma roundRaw_shift1_nonSymNeg (f : ℤ) : roundRaw f (f - 1) FixRound.NonSymNeg_s 5 = 2 := by
  unfold roundRaw
  rw [if_pos (by omega : f - 1 < f), show f - (f - 1) - 1 = 0 from by ring,
    show f - (f - 1) = 1 from by ring]
  decide

lemma roundRaw_shift1_symInf (f : ℤ) : roundRaw f (f - 1) FixRound.SymInf_s 5 = 3 := by
  unfold roundRaw
  rw [if_pos (by omega : f - 1 < f), show f - (f - 1) - 1 = 0 from by ring,
    show f - (f - 1) = 1 from by ring]
  decide

lemma roundRaw_shift1_symZero (f : ℤ) : roundRaw f (f - 1) FixRound.SymZero_s 5 = 2 := by
  unfold roundRaw
  rw [if_pos (by omega : f - 1 < f), show f - (f - 1) - 1 = 0 from by ring,
    show f - (f - 1) = 1 from by ring]
  decide

lemma roundRaw_shift1_convEven (f : ℤ) : roundRaw f (f - 1) FixRound.ConvEven_s 5 = 2 := by
  unfold roundRaw
  rw [if_pos (by omega : f - 1 < f), show f - (f - 1) - 1 = 0 from by ring,
    show f - (f - 1) = 1 from by ring]
  decide

lemma roundRaw_shift1_convOdd (f : ℤ) : roundRaw f (f - 1) FixRound.ConvOdd_s 5 = 3 := by
  unfold roundRaw
  rw [if_pos (by omega : f - 1 < f), show f - (f - 1) - 1 = 0 from by ring,
    show f - (f - 1) = 1 from by ring]
  decide

/-! ## Claim theorems -/

/-- Claim C1: for a fraction-bit decrease of exactly 1 and pre-shift raw value
5, under the ForRound precondition on the target format, round yields raw 2
for Trunc, 3 for NonSymPos, 2 for NonSymNeg, 3 for SymInf (value positive),
2 for SymZero (value positive), 2 for ConvEven and 3 for ConvOdd. -/
theorem round_tie_breaking_shift1_raw5 (fmt : FixFormat) :
    WideFix.round ⟨[5], fmt⟩ (FixFormat.ForRound fmt (fmt.F - 1) FixRound.Trunc_s)
        FixRound.Trunc_s =
      some ⟨[2], FixFormat.ForRound fmt (fmt.F - 1) FixRound.Trunc_s⟩ ∧
    WideFix.round ⟨[5], fmt⟩ (FixFormat.ForRound fmt (fmt.F - 1) FixRound.NonSymPos_s)
        FixRound.NonSymPos_s =
      some ⟨[3], FixFormat.ForRound fmt (fmt.F - 1) FixRound.NonSymPos_s⟩ ∧
    WideFix.round ⟨[5], fmt⟩ (FixFormat.ForRound fmt (fmt.F - 1) FixRound.NonSymNeg_s)
        FixRound.NonSymNeg_s =
      some ⟨[2], FixFormat.ForRound fmt (fmt.F - 1) FixRound.NonSymNeg_s⟩ ∧
    WideFix.round ⟨[5], fmt⟩ (FixFormat.ForRound fmt (fmt.F - 1) FixRound.SymInf_s)
        FixRound.SymInf_s =
      some ⟨[3], FixFormat.ForRound fmt (fmt.F - 1) FixRound.SymInf_s⟩ ∧
    WideFix.round ⟨[5], fmt⟩ (FixFormat.ForRound fmt (fmt.F - 1) FixRound.SymZero_s)
        FixRound.SymZero_s =
      some ⟨[2], FixFormat.ForRound fmt (fmt.F - 1) FixRound.SymZero_s⟩ ∧
    WideFix.round ⟨[5], fmt⟩ (FixFormat.ForRound fmt (fmt.F - 1) FixRound.ConvEven_s)
        FixRound.ConvEven_s =
      some ⟨[2], FixFormat.ForRound fmt (fmt.F - 1) FixRound.ConvEven_s⟩ ∧
    WideFix.round ⟨[5], fmt⟩ (FixFormat.ForRound fmt (fmt.F - 1) FixRound.ConvOdd_s)
        FixRound.ConvOdd_s =
      some ⟨[3], FixFormat.ForRound fmt (fmt.F - 1) FixRound.ConvOdd_s⟩ :=
  ⟨by rw [round_forRound]; simp [roundRaw_shift1_trunc],
   by rw [round_forRound]; simp [roundRaw_shift1_nonSymPos],
   by rw [round_forRound]; simp [roundRaw_shift1_nonSymNeg],
   by rw [round_forRound]; simp [roundRaw_shift1_symInf],
   by rw [round_forRound]; simp [roundRaw_shift1_symZero],
   by rw [round_forRound]; simp [roundRaw_shift1_convEven],
   by rw [round_forRound]; simp [roundRaw_shift1_convOdd]⟩

/-- Claim C3: saturate with mode None wraps each raw value into the target
two's-complement ring (signed: `((x + 2^(I+F)) mod 2^(I+F+1)) - 2^(I+F)`;
unsigned: `x mod 2^(I+F)`), with mode Sat clamps into `[MinValue, MaxValue]`;
in particular for target `(signed=1, intBits=2, fracBits=0)`, raw 5 maps to 3
under Sat and to -3 under None.  The universal part is stated for formats
with `0 ≤ I + F`, where the Python code stays in integer arithmetic. -/
theorem saturate_wrap_sat_spec :
    (∀ (x : WideFix) (rFmt : FixFormat), 0 ≤ rFmt.I + rFmt.F →
      (x.saturate rFmt (SatArg.enum FixSaturate.None_s)).data =
        x.data.map (fun v =>
          if rFmt.S then
            Int.emod (v + 2 ^ (rFmt.I + rFmt.F).toNat) (2 ^ ((rFmt.I + rFmt.F).toNat + 1)) -
              2 ^ (rFmt.I + rFmt.F).toNat
          else
            Int.emod v (2 ^ (rFmt.I + rFmt.F).toNat)) ∧
      (x.saturate rFmt (SatArg.enum FixSaturate.Sat_s)).data =
        x.data.map (fun v => max (minRaw rFmt) (min v (maxRaw rFmt)))) ∧
    WideFix.saturate ⟨[5], ⟨true, 2, 0⟩⟩ ⟨true, 2, 0⟩ (SatArg.enum FixSaturate.Sat_s) =
      ⟨[3], ⟨true, 2, 0⟩⟩ ∧
    WideFix.saturate ⟨[5], ⟨true, 2, 0⟩⟩ ⟨true, 2, 0⟩ (SatArg.enum FixSaturate.None_s) =
      ⟨[-3], ⟨true, 2, 0⟩⟩ := by
  refine ⟨fun x rFmt _h => ⟨?_, ?_⟩, by decide, by decide⟩
  · unfold WideFix.saturate
    rw [if_pos (Or.inl rfl)]
    by_cases hS : rFmt.S
    · simp only [hS, if_true, pow_succ]
      congr 1
      funext v
      ring_nf
    · simp [hS]
  · unfold WideFix.saturate
    rw [if_neg (by simp)]
    dsimp only
    congr 1
    funext v
    have hmm := minRaw_le_maxRaw rFmt
    split_ifs <;> omega

/-- Claim C3 witness: the universal part of `saturate_wrap_sat_spec`
instantiated at the concrete saturation example of the spec. -/
theorem saturate_wrap_sat_spec_witness :
    (WideFix.saturate ⟨[5], ⟨true, 2, 0⟩⟩ ⟨true, 2, 0⟩
        (SatArg.enum FixSaturate.None_s)).data =
      [5].map (fun v =>
        if (⟨true, 2, 0⟩ : FixFormat).S then
          Int.emod (v + 2 ^ ((2:ℤ) + 0).toNat) (2 ^ (((2:ℤ) + 0).toNat + 1)) -
            2 ^ ((2:ℤ) + 0).toNat
        else
          Int.emod v (2 ^ ((2:ℤ) + 0).toNat)) ∧
    (WideFix.saturate ⟨[5], ⟨true, 2, 0⟩⟩ ⟨true, 2, 0⟩
        (SatArg.enum FixSaturate.Sat_s)).data =
      [5].map (fun v => max (minRaw ⟨true, 2, 0⟩) (min v (maxRaw ⟨true, 2, 0⟩))) :=
  saturate_wrap_sat_spec.1 ⟨[5], ⟨true, 2, 0⟩⟩ ⟨true, 2, 0⟩ (by decide)

/-- Claim C4 counterexample: for the signed format `(1, 2, 0)` (width 3),
MaxValue holds raw `2^(I+F) - 1 = 3`, not `2^width - 1 = 7` as claimed. -/
theorem maxValue_width_counterexample :
    (WideFix.MaxValue ⟨true, 2, 0⟩).data ≠
      [2 ^ (FixFormat.width ⟨true, 2, 0⟩).toNat - 1] := by
  decide

/-- Claim C4, amended: for every format with `0 ≤ intBits + fracBits`,
MaxValue returns a single-element container whose raw value is
`2^(width - (signed?1:0)) - 1 = 2^(intBits+fracBits) - 1`, and MinValue one
whose raw value is `-2^(width - (signed?1:0))` if signed and 0 otherwise;
both carry the given format. -/
theorem maxValue_minValue_amended (fmt : FixFormat) (_h : 0 ≤ fmt.I + fmt.F) :
    (WideFix.MaxValue fmt).data =
      [2 ^ (fmt.width - (if fmt.S then 1 else 0)).toNat - 1] ∧
    (WideFix.MinValue fmt).data =
      [if fmt.S then -(2 ^ (fmt.width - (if fmt.S then 1 else 0)).toNat : ℤ) else 0] ∧
    (WideFix.MaxValue fmt).fmt = fmt ∧ (WideFix.MinValue fmt).fmt = fmt := by
  have hw : fmt.width - (if fmt.S then 1 else 0) = fmt.I + fmt.F := by
    unfold FixFormat.width
    ring
  rw [hw]
  exact ⟨rfl, rfl, rfl, rfl⟩

/-- Claim C4 witness: the amended statement evaluated at the signed format
`(1, 2, 0)`, giving MaxValue raw 3 and MinValue raw -4. -/
theorem maxValue_minValue_amended_witness :
    (WideFix.MaxValue ⟨true, 2, 0⟩).data =
      [2 ^ ((FixFormat.width ⟨true, 2, 0⟩) - (if (true : Bool) then 1 else 0)).toNat - 1] ∧
    (WideFix.MinValue ⟨true, 2, 0⟩).data =
      [if (true : Bool) then
          -(2 ^ ((FixFormat.width ⟨true, 2, 0⟩) - (if (true : Bool) then 1 else 0)).toNat : ℤ)
        else 0] ∧
    (WideFix.MaxValue ⟨true, 2, 0⟩).fmt = ⟨true, 2, 0⟩ ∧
    (WideFix.MinValue ⟨true, 2, 0⟩).fmt = ⟨true, 2, 0⟩ :=
  maxValue_minValue_amended ⟨true, 2, 0⟩ (by decide)

/-- Claim C9 counterexample: a non-enumerant saturation-mode argument does
not make `saturate` fail; it produces the clamped result (raw 5 clamps to 3
in the signed format `(1, 2, 0)`). -/
theorem saturate_unknown_mode_counterexample :
    WideFix.saturate ⟨[5], ⟨true, 2, 0⟩⟩ ⟨true, 2, 0⟩ (SatArg.other 99) =
      ⟨[3], ⟨true, 2, 0⟩⟩ := by
  decide

/-- Claim C9, amended: `saturate` accepts any mode argument; a value that is
not one of the four enumerants falls into the final else branch and behaves
exactly like `Sat` (clamping into `[MinValue, MaxValue]`); no invalid-mode
error is raised. -/
theorem saturate_unknown_mode_clamps (x : WideFix) (rFmt : FixFormat) (v : ℤ) :
    x.saturate rFmt (SatArg.other v) = x.saturate rFmt (SatArg.enum FixSaturate.Sat_s) := by
  unfold WideFix.saturate
  rw [if_neg (by simp), if_neg (by simp)]

/-- Claim C10: `FromUint64Array` applies the two's-complement sign fold
unconditionally (no signed-flag check): whenever the weighted word sum `v`
satisfies `v ≥ 2^(I+F)`, the stored raw value is `v - 2^(I+F+1)`; in
particular, for the unsigned format `(0, 1, 0)` and word array `[3]` the
container holds raw -1, below that format's MinValue of 0. -/
theorem fromUint64Array_sign_fold :
    (∀ (fmt : FixFormat) (ws : List ℕ), 0 ≤ fmt.I + fmt.F →
      2 ^ (fmt.I + fmt.F).toNat ≤ uint64WeightedSum ws →
      WideFix.FromUint64Array [ws] fmt =
        ⟨[uint64WeightedSum ws - 2 ^ ((fmt.I + fmt.F).toNat + 1)], fmt⟩) ∧
    WideFix.FromUint64Array [[3]] ⟨false, 1, 0⟩ = ⟨[-1], ⟨false, 1, 0⟩⟩ ∧
    (-1 : ℤ) < minRaw ⟨false, 1, 0⟩ ∧ (⟨false, 1, 0⟩ : FixFormat).S = false := by
  refine ⟨fun fmt ws h hge => ?_, by decide, by decide, rfl⟩
  unfold WideFix.FromUint64Array
  simp only [List.map_cons, List.map_nil]
  rw [if_pos hge, show (fmt.I + fmt.F + 1).toNat = (fmt.I + fmt.F).toNat + 1 from by omega]

/-- Claim C10 witness: the sign-fold equation of `fromUint64Array_sign_fold`
instantiated at the unsigned format `(0, 1, 0)` and word array `[3]`. -/
theorem fromUint64Array_sign_fold_witness :
    WideFix.FromUint64Array [[3]] ⟨false, 1, 0⟩ =
      ⟨[uint64WeightedSum [3] - 2 ^ (((1:ℤ) + 0).toNat + 1)], ⟨false, 1, 0⟩⟩ :=
  fromUint64Array_sign_fold.1 ⟨false, 1, 0⟩ [3] (by decide) (by decide)

lemma roundRaw_shrink (f fr : ℤ) (h : fr < f) (rnd : FixRound) (v : ℤ) :
    ∃ off : ℤ, 0 ≤ off ∧ off ≤ 2 ^ (f - fr - 1).toNat ∧
      roundRaw f fr rnd v = Int.fdiv (v + off) (2 ^ (f - fr).toNat) := by
  have hhalf : (0:ℤ) < 2 ^ (f - fr - 1).toNat := by positivity
  unfold roundRaw
  rw [if_pos h]
  cases rnd with
  | Trunc_s => exact ⟨0, le_refl 0, by positivity, by rw [add_zero]⟩
  | NonSymPos_s => exact ⟨2 ^ (f - fr - 1).toNat, by positivity, le_refl _, rfl⟩
  | NonSymNeg_s => exact ⟨2 ^ (f - fr - 1).toNat - 1, by omega, by omega, rfl⟩
  | SymInf_s =>
      refine ⟨2 ^ (f - fr - 1).toNat - (if v < 0 then 1 else 0), ?_, ?_, rfl⟩ <;>
        split_ifs <;> omega
  | SymZero_s =>
      refine ⟨2 ^ (f - fr - 1).toNat - (if 0 ≤ v then 1 else 0), ?_, ?_, rfl⟩ <;>
        split_ifs <;> omega
  | ConvEven_s =>
      have h0 : 0 ≤ Int.emod (Int.fdiv v (2 ^ (f - fr).toNat) + 1) 2 :=
        Int.emod_nonneg _ (by norm_num)
      have h1 : Int.emod (Int.fdiv v (2 ^ (f - fr).toNat) + 1) 2 < 2 :=
        Int.emod_lt_of_pos _ (by norm_num)
      exact ⟨2 ^ (f - fr - 1).toNat - Int.emod (Int.fdiv v (2 ^ (f - fr).toNat) + 1) 2,
        by omega, by omega, rfl⟩
  | ConvOdd_s =>
      have h0 : 0 ≤ Int.emod (Int.fdiv v (2 ^ (f - fr).toNat)) 2 :=
        Int.emod_nonneg _ (by norm_num)
      have h1 : Int.emod (Int.fdiv v (2 ^ (f - fr).toNat)) 2 < 2 :=
        Int.emod_lt_of_pos _ (by norm_num)
      exact ⟨2 ^ (f - fr - 1).toNat - Int.emod (Int.fdiv v (2 ^ (f - fr).toNat)) 2,
        by omega, by omega, rfl⟩

lemma fdiv_offset_err (s : ℕ) (hs : 1 ≤ s) (v off : ℤ) (h0 : 0 ≤ off)
    (h1 : off ≤ 2 ^ (s - 1)) :
    |((Int.fdiv (v + off) (2 ^ s) : ℤ) : ℚ) - (v : ℚ) / 2 ^ s| ≤ 1 := by
  have hb : (0:ℤ) < 2 ^ s := by positivity
  have hbq : (0:ℚ) < 2 ^ s := by positivity
  rw [Int.fdiv_eq_ediv _ hb.le]
  have hqr : 2 ^ s * ((v + off) / 2 ^ s) + (v + off) % 2 ^ s = v + off :=
    Int.ediv_add_emod _ _
  have hr0 : 0 ≤ (v + off) % 2 ^ s := Int.emod_nonneg _ (ne_of_gt hb)
  have hr1 : (v + off) % 2 ^ s < 2 ^ s := Int.emod_lt_of_pos _ hb
  have hhalf : (2:ℤ) ^ (s - 1) ≤ 2 ^ s := pow_le_pow_right₀ (by norm_num) (by omega)
  have key : (((v + off) / 2 ^ s : ℤ) : ℚ) - (v : ℚ) / 2 ^ s =
      ((off - (v + off) % 2 ^ s : ℤ) : ℚ) / ((2:ℚ) ^ s) := by
    have hqr2 : ((2:ℚ) ^ s) * (((v + off) / 2 ^ s : ℤ) : ℚ) + (((v + off) % 2 ^ s : ℤ) : ℚ)
        = (v : ℚ) + (off : ℚ) := by
      exact_mod_cast congrArg (fun t : ℤ => (t : ℚ)) hqr
    field_simp
    linarith
  rw [key, abs_div, abs_of_pos hbq, div_le_one hbq]
  have hint : |off - (v + off) % 2 ^ s| ≤ 2 ^ s := by
    rw [abs_le]
    omega
  calc |((off - (v + off) % 2 ^ s : ℤ) : ℚ)| = ((|off - (v + off) % 2 ^ s| : ℤ) : ℚ) := by
        rw [Int.cast_abs]
    _ ≤ (((2:ℤ) ^ s : ℤ) : ℚ) := by exact_mod_cast hint
    _ = (2:ℚ) ^ s := by push_cast; ring

/-- Claim C2: whenever the fraction bits decrease (`shift > 0`) and the
target format satisfies the ForRound precondition, for every rounding mode
and every raw value `x` the rounded raw result is within one unit in the
last place of the exact scaled value: `|r - x / 2^shift| ≤ 1` in ℚ. -/
theorem round_within_one_ulp (fmt rFmt : FixFormat) (rnd : FixRound) (x : ℤ)
    (hpre : rFmt = FixFormat.ForRound fmt rFmt.F rnd) (hs : rFmt.F < fmt.F) :
    WideFix.round ⟨[x], fmt⟩ rFmt rnd = some ⟨[roundRaw fmt.F rFmt.F rnd x], rFmt⟩ ∧
    |((roundRaw fmt.F rFmt.F rnd x : ℤ) : ℚ) - (x : ℚ) / 2 ^ (fmt.F - rFmt.F).toNat| ≤ 1 := by
  constructor
  · have hpre2 : rFmt = FixFormat.ForRound (WideFix.mk [x] fmt).fmt rFmt.F rnd := hpre
    unfold WideFix.round
    rw [if_pos hpre2]
    rfl
  · obtain ⟨off, h0, h1, heq⟩ := roundRaw_shrink fmt.F rFmt.F hs rnd x
    rw [heq]
    have hs1 : 1 ≤ (fmt.F - rFmt.F).toNat := by omega
    have ht : (fmt.F - rFmt.F - 1).toNat = (fmt.F - rFmt.F).toNat - 1 := by omega
    exact fdiv_offset_err _ hs1 x off h0 (by rw [← ht]; exact h1)

/-- Claim C2 witness: the one-ULP bound instantiated at the unsigned source
format `(0, 2, 2)`, target `(0, 3, 1)` (its ForRound format for half-up),
mode NonSymPos and raw value 5 (shift of one fraction bit). -/
theorem round_within_one_ulp_witness :
    WideFix.round ⟨[5], ⟨false, 2, 2⟩⟩ ⟨false, 3, 1⟩ FixRound.NonSymPos_s =
      some ⟨[roundRaw 2 1 FixRound.NonSymPos_s 5], ⟨false, 3, 1⟩⟩ ∧
    |((roundRaw 2 1 FixRound.NonSymPos_s 5 : ℤ) : ℚ) -
        (5 : ℚ) / 2 ^ ((2 - 1 : ℤ)).toNat| ≤ 1 :=
  round_within_one_ulp ⟨false, 2, 2⟩ ⟨false, 3, 1⟩ FixRound.NonSymPos_s 5
    (by decide) (by decide)

lemma roundRaw_widen (f fr : ℤ) (h : f ≤ fr) (rnd : FixRound) (v : ℤ) :
    roundRaw f fr rnd v = v * 2 ^ (fr - f).toNat := by
  unfold roundRaw
  rw [if_neg (not_lt.mpr h)]
  by_cases h2 : f < fr
  · rw [if_pos h2]
  · rw [if_neg h2, show (fr - f).toNat = 0 from by omega, pow_zero, mul_one]

lemma round_forRoundProj (x : WideFix) (rF : ℤ) (rnd : FixRound) :
    WideFix.round x (FixFormat.ForRound x.fmt rF rnd) rnd =
      some ⟨x.data.map (roundRaw x.fmt.F rF rnd), FixFormat.ForRound x.fmt rF rnd⟩ := by
  cases x
  exact round_forRound _ _ _ _

/-- Claim C7: the addition operator is exact: in the ForAdd-inferred result
format, the raw result divided by `2^result.F` equals the exact rational sum
of the operands.  Proved for every pair of raw values (so in particular for
every representable pair). -/
theorem add_exact (aFmt bFmt : FixFormat) (va vb : ℤ) :
    ∃ r : ℤ,
      WideFix.add ⟨[va], aFmt⟩ ⟨[vb], bFmt⟩ = some ⟨[r], FixFormat.ForAdd aFmt bFmt⟩ ∧
      (r : ℚ) / (2:ℚ) ^ (FixFormat.ForAdd aFmt bFmt).F =
        (va : ℚ) / (2:ℚ) ^ aFmt.F + (vb : ℚ) / (2:ℚ) ^ bFmt.F := by
  have hle_a : aFmt.F ≤ max aFmt.F bFmt.F := le_max_left _ _
  have hle_b : bFmt.F ≤ max aFmt.F bFmt.F := le_max_right _ _
  have hA := roundRaw_widen aFmt.F (max aFmt.F bFmt.F) hle_a FixRound.Trunc_s va
  have hB := roundRaw_widen bFmt.F (max aFmt.F bFmt.F) hle_b FixRound.Trunc_s vb
  refine ⟨va * 2 ^ (max aFmt.F bFmt.F - aFmt.F).toNat +
    vb * 2 ^ (max aFmt.F bFmt.F - bFmt.F).toNat, ?_, ?_⟩
  · unfold WideFix.add
    dsimp only
    rw [round_forRoundProj, round_forRoundProj]
    simp [hA, hB, FixFormat.ForAdd]
  · have h2 : (2:ℚ) ≠ 0 := two_ne_zero
    have hF : (FixFormat.ForAdd aFmt bFmt).F = max aFmt.F bFmt.F := rfl
    have ea : ((2:ℚ) ^ ((max aFmt.F bFmt.F - aFmt.F).toNat) : ℚ) =
        (2:ℚ) ^ (max aFmt.F bFmt.F - aFmt.F) := by
      rw [← zpow_natCast]
      congr 1
      omega
    have eb : ((2:ℚ) ^ ((max aFmt.F bFmt.F - bFmt.F).toNat) : ℚ) =
        (2:ℚ) ^ (max aFmt.F bFmt.F - bFmt.F) := by
      rw [← zpow_natCast]
      congr 1
      omega
    rw [hF]
    push_cast
    rw [ea, eb, div_eq_iff (zpow_ne_zero _ h2), zpow_sub₀ h2, zpow_sub₀ h2]
    ring

lemma saturate_fmt (x : WideFix) (rFmt : FixFormat) (sat : SatArg) :
    (x.saturate rFmt sat).fmt = rFmt := by
  unfold WideFix.saturate
  split
  · split <;> rfl
  · rfl

lemma emod_emod_self (a n : ℤ) : Int.emod (Int.emod a n) n = Int.emod a n :=
  Int.emod_emod_of_dvd _ dvd_rfl

lemma map_ext_of_eq {f g : ℤ → ℤ} (l : List ℤ) (h : ∀ a, f a = g a) :
    l.map f = l.map g := by
  induction l with
  | nil => rfl
  | cons v t ih => simp [h, ih]

lemma wrapS_idem (n : ℕ) (v : ℤ) :
    Int.emod (Int.emod (v + 2 ^ n) (2 * 2 ^ n) - 2 ^ n + 2 ^ n) (2 * 2 ^ n) - 2 ^ n =
      Int.emod (v + 2 ^ n) (2 * 2 ^ n) - 2 ^ n := by
  rw [sub_add_cancel, emod_emod_self]

lemma clamp_idem (lo hi v : ℤ) :
    (let u := if hi < (if (if hi < v then hi else v) < lo then lo
        else (if hi < v then hi else v)) then hi
      else (if (if hi < v then hi else v) < lo then lo else (if hi < v then hi else v));
     if u < lo then lo else u) =
      (if (if hi < v then hi else v) < lo then lo else (if hi < v then hi else v)) := by
  dsimp only
  split_ifs <;> omega

lemma saturate_idem (x : WideFix) (rFmt : FixFormat) (sat : SatArg) :
    (x.saturate rFmt sat).saturate rFmt sat = x.saturate rFmt sat := by
  unfold WideFix.saturate
  split
  · by_cases hS : rFmt.S
    · simp only [hS, if_true, List.map_map]
      congr 1
      refine map_ext_of_eq _ (fun v => ?_)
      simp only [Function.comp_apply]
      exact wrapS_idem _ v
    · simp only [hS, Bool.false_eq_true, if_false, List.map_map]
      congr 1
      refine map_ext_of_eq _ (fun v => ?_)
      simp only [Function.comp_apply]
      exact emod_emod_self _ _
  · simp only [List.map_map]
    congr 1
    refine map_ext_of_eq _ (fun v => ?_)
    simp only [Function.comp_apply]
    exact clamp_idem (minRaw rFmt) (maxRaw rFmt) v

lemma resize_eval (x : WideFix) (rFmt : FixFormat) (rnd : FixRound) (sat : SatArg) :
    x.resize rFmt rnd sat =
      some ((WideFix.mk (x.data.map (roundRaw x.fmt.F rFmt.F rnd))
        (FixFormat.ForRound x.fmt rFmt.F rnd)).saturate rFmt sat) := by
  unfold WideFix.resize
  rw [round_forRoundProj]
  rfl

lemma mk_data_fmt_eq (rFmt : FixFormat) (w : WideFix) (hw : w.fmt = rFmt) :
    (⟨w.data, rFmt⟩ : WideFix) = w := by
  cases w
  cases hw
  rfl

lemma resize_saturated (z : WideFix) (rFmt : FixFormat) (rnd : FixRound) (sat : SatArg) :
    (z.saturate rFmt sat).resize rFmt rnd sat = some (z.saturate rFmt sat) := by
  have hfmt : (z.saturate rFmt sat).fmt = rFmt := saturate_fmt z rFmt sat
  unfold WideFix.resize
  have hr : (z.saturate rFmt sat).round (FixFormat.ForRound (z.saturate rFmt sat).fmt
      rFmt.F rnd) rnd = some (z.saturate rFmt sat) := by
    unfold WideFix.round
    rw [hfmt, forRound_self, forRound_self, if_pos rfl, map_roundRaw_same]
    exact congrArg some (mk_data_fmt_eq rFmt _ hfmt)
  rw [hr]
  exact congrArg some (saturate_idem z rFmt sat)

/-- Claim C6: resize is idempotent: applying resize a second time with the
same target format, rounding mode and saturation mode reproduces the first
result exactly (same raw data and format).  Stated for target formats with
`0 ≤ I + F`, where the Python code stays in integer arithmetic. -/
theorem resize_idempotent (x : WideFix) (rFmt : FixFormat) (rnd : FixRound) (sat : SatArg)
    (_h : 0 ≤ rFmt.I + rFmt.F) :
    (x.resize rFmt rnd sat).bind (fun y => y.resize rFmt rnd sat) = x.resize rFmt rnd sat := by
  rw [resize_eval x rFmt rnd sat]
  show ((WideFix.mk (x.data.map (roundRaw x.fmt.F rFmt.F rnd))
      (FixFormat.ForRound x.fmt rFmt.F rnd)).saturate rFmt sat).resize rFmt rnd sat =
    some ((WideFix.mk (x.data.map (roundRaw x.fmt.F rFmt.F rnd))
      (FixFormat.ForRound x.fmt rFmt.F rnd)).saturate rFmt sat)
  exact resize_saturated _ rFmt rnd sat

/-- Claim C6 witness: idempotence of resize evaluated at a concrete
container, target format `(1, 2, 0)`, mode Trunc and saturating clamp. -/
theorem resize_idempotent_witness :
    ((WideFix.mk [5] ⟨true, 2, 2⟩).resize ⟨true, 2, 0⟩ FixRound.Trunc_s
        (SatArg.enum FixSaturate.Sat_s)).bind
      (fun y => y.resize ⟨true, 2, 0⟩ FixRound.Trunc_s (SatArg.enum FixSaturate.Sat_s)) =
    (WideFix.mk [5] ⟨true, 2, 2⟩).resize ⟨true, 2, 0⟩ FixRound.Trunc_s
      (SatArg.enum FixSaturate.Sat_s) :=
  resize_idempotent ⟨[5], ⟨true, 2, 2⟩⟩ ⟨true, 2, 0⟩ FixRound.Trunc_s
    (SatArg.enum FixSaturate.Sat_s) (by decide)

lemma packWords_sum (n : ℕ) (u : ℤ) (h0 : 0 ≤ u) (h1 : u < 2 ^ (64 * n)) :
    uint64WeightedSum (packWords n u) = u := by
  induction n generalizing u with
  | zero =>
      simp only [packWords, uint64WeightedSum]
      simp only [Nat.mul_zero, pow_zero] at h1
      omega
  | succ n ih =>
      have hb : (0:ℤ) < 2 ^ 64 := by positivity
      simp only [packWords, uint64WeightedSum]
      rw [show Int.emod u (2 ^ 64) = u % 2 ^ 64 from rfl,
        Int.toNat_of_nonneg (Int.emod_nonneg u (ne_of_gt hb)), Int.fdiv_eq_ediv _ hb.le]
      rw [ih (u / 2 ^ 64) (Int.ediv_nonneg h0 hb.le) ?_]
      · linarith [Int.ediv_add_emod u (2 ^ 64)]
      · rw [Int.ediv_lt_iff_lt_mul hb]
        calc u < 2 ^ (64 * (n + 1)) := h1
          _ = 2 ^ (64 * n) * 2 ^ 64 := by rw [mul_add, mul_one, pow_add]

lemma pack_unpack_elem (fmt : FixFormat) (hIF : 0 ≤ fmt.I + fmt.F) (v : ℤ)
    (hlo : minRaw fmt ≤ v) (hhi : v ≤ maxRaw fmt) :
    (let val := uint64WeightedSum (packWords ((fmt.width.toNat + 63) / 64)
        (if v < 0 then v + 2 ^ fmt.width.toNat else v));
     if 2 ^ (fmt.I + fmt.F).toNat ≤ val then val - 2 ^ (fmt.I + fmt.F + 1).toNat else val) = v := by
  have hb : (0:ℤ) < 2 ^ (fmt.I + fmt.F).toNat := by positivity
  have hw64 : fmt.width.toNat ≤ 64 * ((fmt.width.toNat + 63) / 64) := by omega
  have hpow : (2:ℤ) ^ fmt.width.toNat ≤ 2 ^ (64 * ((fmt.width.toNat + 63) / 64)) :=
    pow_le_pow_right₀ (by norm_num) hw64
  have hmax : maxRaw fmt = 2 ^ (fmt.I + fmt.F).toNat - 1 := rfl
  rw [hmax] at hhi
  dsimp only
  by_cases hS : fmt.S
  · have hwz : fmt.width = 1 + fmt.I + fmt.F := by
      unfold FixFormat.width
      rw [hS]
      simp
    have hwn : fmt.width.toNat = (fmt.I + fmt.F).toNat + 1 := by omega
    have h2w : (2:ℤ) ^ fmt.width.toNat = 2 * 2 ^ (fmt.I + fmt.F).toNat := by
      rw [hwn]
      ring
    have hmin : minRaw fmt = -(2 ^ (fmt.I + fmt.F).toNat) := by simp [minRaw, hS]
    rw [hmin] at hlo
    by_cases hv : v < 0
    · rw [if_pos hv]
      rw [packWords_sum _ _ (by omega) (by omega)]
      rw [if_pos (by omega)]
      have h3 : (fmt.I + fmt.F + 1).toNat = (fmt.I + fmt.F).toNat + 1 := by omega
      have h4 : (2:ℤ) ^ ((fmt.I + fmt.F).toNat + 1) = 2 * 2 ^ (fmt.I + fmt.F).toNat := by ring
      rw [h3, h4]
      omega
    · rw [if_neg hv]
      rw [packWords_sum _ _ (by omega) (by omega)]
      rw [if_neg (by omega)]
  · have hS2 : fmt.S = false := by
      revert hS
      cases fmt.S <;> simp
    have hwz : fmt.width = fmt.I + fmt.F := by
      unfold FixFormat.width
      rw [hS2]
      simp
    have hwn : fmt.width.toNat = (fmt.I + fmt.F).toNat := by omega
    have h2w : (2:ℤ) ^ fmt.width.toNat = 2 ^ (fmt.I + fmt.F).toNat := by rw [hwn]
    have hmin : minRaw fmt = 0 := by simp [minRaw, hS2]
    rw [hmin] at hlo
    rw [if_neg (show ¬ v < 0 by omega)]
    rw [packWords_sum _ _ hlo (by omega)]
    rw [if_neg (by omega)]

lemma map_eq_self_of_mem {f : ℤ → ℤ} (l : List ℤ) (h : ∀ a ∈ l, f a = a) :
    l.map f = l := by
  induction l with
  | nil => rfl
  | cons v t ih =>
      rw [List.map_cons, h v (List.mem_cons_self _ _),
        ih (fun a ha => h a (List.mem_cons_of_mem _ ha))]

/-- Claim C5: for every container whose elements all lie in
`[MinValue, MaxValue]` of its format (with `0 ≤ I + F`, where the Python
code stays in integer arithmetic), unpacking the packed 64-bit word form
reproduces the container exactly: `FromUint64Array(to_uint64_array(x),
x.fmt) = x` (identical raw data and format). -/
theorem uint64_roundtrip (x : WideFix) (hIF : 0 ≤ x.fmt.I + x.fmt.F)
    (hrange : ∀ v ∈ x.data, minRaw x.fmt ≤ v ∧ v ≤ maxRaw x.fmt) :
    WideFix.FromUint64Array x.to_uint64_array x.fmt = x := by
  obtain ⟨d, fmt⟩ := x
  unfold WideFix.to_uint64_array WideFix.FromUint64Array
  dsimp only at *
  rw [List.map_map]
  congr 1
  refine map_eq_self_of_mem d (fun a ha => ?_)
  simp only [Function.comp_apply]
  exact pack_unpack_elem fmt hIF a (hrange a ha).1 (hrange a ha).2

/-- Claim C5 witness: the pack/unpack round trip evaluated on a concrete
two-element signed container holding raw values -4 and 3. -/
theorem uint64_roundtrip_witness :
    WideFix.FromUint64Array (WideFix.to_uint64_array ⟨[-4, 3], ⟨true, 2, 0⟩⟩) ⟨true, 2, 0⟩ =
      ⟨[-4, 3], ⟨true, 2, 0⟩⟩ :=
  uint64_roundtrip ⟨[-4, 3], ⟨true, 2, 0⟩⟩ (by decide) (by decide)
